import Mathlib

/-!
# The `bre` rule engine (`src/bre.go`): expression evaluator and rule runner

A shallow embedding of `eval`, `evalBinaryExpr`, `strToFloat64`, `exeAstNodes`,
`ExeBrePkg`, `compile` and `SetBrePkg`, followed by the properties established about
them.

Conventions of the embedding:

* a Go `map[string]string` is a function `String → Option String`
  (`none` = key absent); the in-place mutation through `*map` is explicit
  state passing: every evaluator returns the fact table it leaves behind;
* `log.Fatalf` terminates the process: it is the `Except.error` outcome of
  `Run`; a recovered `panic` is an ordinary return with a non-nil Go `error`
  (`some msg`);
* the trees are the `go/ast` nodes that `eval` distinguishes; the float64
  facilities of the Go standard library are a parameter (`Float64Lib`), and so is
  `parser.ParseExpr` (a function from the text to the tree or the error message);
* `wholeLib` describes binary64 on whole numbers (IEEE 754 rounding to nearest, ties
  to even); it belongs to the Go runtime, not to `bre.go`, and is used where a
  property depends on what float64 does.
-/

namespace Bre

/-! ## Go standard-library data used by the evaluator -/

/-- Binary operator tokens of `go/token` (every operator a `*ast.BinaryExpr` can carry). -/
inductive Token where
  | ADD | SUB | MUL | QUO | REM
  | AND | OR | XOR | SHL | SHR | AND_NOT
  | LAND | LOR
  | EQL | LSS | GTR | NEQ | LEQ | GEQ
  deriving DecidableEq, Repr

/-- Literal kinds of `go/token` carried by a `*ast.BasicLit`. -/
inductive LitKind where
  | INT | FLOAT | IMAG | CHAR | STRING
  deriving DecidableEq, Repr

mutual
/-- An `ast.Expr`, as far as `eval` tells nodes apart: the four node types of its
type switch, and `Other` for every node type the switch does not list
(unary, call, selector, index expressions and so on). -/
inductive Expr where
  | Binary (b : BinaryExpr)
  | BasicLit (Kind : LitKind) (Value : String)
  | ParenExpr (X : Expr)
  | Ident (Name : String)
  | Other
/-- An `*ast.BinaryExpr`: fields `X`, `Op`, `Y`. -/
inductive BinaryExpr where
  | mk (X : Expr) (Op : Token) (Y : Expr)
end

/-- Process termination through `log.Fatalf`: the logged message. -/
structure Fatal where
  msg : String
  deriving DecidableEq, Repr

/-- A computation that either returns or terminates the process. -/
abbrev Run (α : Type) := Except Fatal α

/-- What `strToFloat64` and the arithmetic cases of `evalBinaryExpr` take from the Go
standard library: the type `float64` with its four operators,
`strconv.ParseFloat(value, 64)` (`none` when it returns an error) and
`fmt.Sprintf("%.2f", ans)`. -/
structure Float64Lib where
  float64 : Type
  ParseFloat : String → Option float64
  add : float64 → float64 → float64
  sub : float64 → float64 → float64
  mul : float64 → float64 → float64
  quo : float64 → float64 → float64
  Sprintf2f : float64 → String

/-- An instance of `Float64Lib` restricted to integer operands, on which closed examples
are evaluated: whole decimal numbers with exact `+`, `-`, `*`. It does not describe
fractional operands, and its `quo` is integer division, not float64 division. -/
def intLib : Float64Lib where
  float64 := Int
  ParseFloat := fun s => s.toInt?
  add := fun a b => a + b
  sub := fun a b => a - b
  mul := fun a b => a * b
  quo := fun a b => a / b
  Sprintf2f := fun a => toString a ++ ".00"

/-- Go `strings.HasPrefix(s, pre)`. -/
def HasPrefix (s pre : String) : Bool := pre.data.isPrefixOf s.data

/-- Go `s[1:]` for a string whose first byte is a one-byte character (used after
`HasPrefix(s, "_")` only). -/
def sliceFrom1 (s : String) : String := ⟨s.data.drop 1⟩

/-! ## Data model of `bre.go` -/

/-- The fact table, `map[string]string`. -/
abbrev Facts := String → Option String

/-- The empty fact table. -/
def Facts.empty : Facts := fun _ => none

/-- Go `m[k] = v`. -/
def Facts.set (m : Facts) (k v : String) : Facts :=
  fun x => if x = k then some v else m x

/-- Go `m[k]` read as a single value: the zero value `""` for an absent key. -/
def Facts.index (m : Facts) (k : String) : String :=
  match m k with
  | some v => v
  | none => ""

/-- The table decoded from a JSON object with the given members, in order. -/
def Facts.ofList (l : List (String × String)) : Facts :=
  l.foldl (fun m kv => m.set kv.1 kv.2) Facts.empty

/-- The filter set, `map[string]struct{}`: key membership. -/
abbrev Filters := String → Bool

/-- The filter set that `SetBrePkg` builds from the package's `Filters` list. -/
def Filters.ofList (l : List String) : Filters :=
  l.foldl (fun m v => fun x => if x = v then true else m x) (fun _ => false)

/-- Go `type ruleSet struct`. -/
structure ruleSet where
  RuleName : String
  Rule : String
  Actions : List String

/-- Go `type BrePkg struct`. -/
structure BrePkg where
  PkgName : String
  ValidFrom : String
  ValidTo : String
  RuleSet : List ruleSet
  Filters : List String

/-- Go `type astNode struct`. -/
structure astNode where
  name : String
  expr : Expr
  actionExpr : List Expr

/-- The package-level variables `astNodes`, `filters`, `brePackage`. -/
structure Globals where
  astNodes : String → Option astNode
  filters : Filters
  brePackage : BrePkg

/-! ## The evaluator -/

/-- `strToFloat64`: the parsed number, or the process exit of `log.Fatalf`. -/
def strToFloat64 (fl : Float64Lib) (value : String) : Run fl.float64 :=
  match fl.ParseFloat value with
  | some floatNbr => .ok floatNbr
  | none => .error ⟨"Unable to convert " ++ value ++ " to float"⟩

/-- The body common to the four arithmetic cases of `evalBinaryExpr`, which differ in
the operator only: convert left, then right, apply `op`, format with `%.2f`. -/
def arith (fl : Float64Lib) (op : fl.float64 → fl.float64 → fl.float64)
    (left right : String) : Run String :=
  match strToFloat64 fl left with
  | .error e => .error e
  | .ok leftFloat =>
    match strToFloat64 fl right with
    | .error e => .error e
    | .ok rightFloat => .ok (fl.Sprintf2f (op leftFloat rightFloat))

mutual
/-- `eval`: the returned string and the fact table left behind. -/
def eval (fl : Float64Lib) : Expr → Bool → Bool → Int → Facts → Filters → Run (String × Facts)
  | .Binary exp, isRule, isLeft, cnt, facts, filters =>
    evalBinaryExpr fl exp isRule isLeft cnt facts filters
  | .BasicLit Kind Value, _, _, _, facts, _ =>
    match Kind with
    | .INT => .ok (Value, facts)
    | .STRING => .ok (Value, facts)
    | _ => .ok ("", facts)
  | .ParenExpr X, isRule, isLeft, cnt, facts, filters =>
    eval fl X isRule isLeft cnt facts filters
  | .Ident Name, isRule, _, _, facts, _ =>
    if isRule then .ok (Name, facts)
    else if HasPrefix Name "_" then .ok (sliceFrom1 Name, facts)
    else
      match facts Name with
      | some v => .ok (v, facts)
      | none => .ok (Name, facts)
  | .Other, _, _, _, facts, _ => .ok ("", facts)
/-- `evalBinaryExpr`: the returned string and the fact table left behind. -/
def evalBinaryExpr (fl : Float64Lib) :
    BinaryExpr → Bool → Bool → Int → Facts → Filters → Run (String × Facts)
  | .mk X Op Y, isRule, _, cnt, facts, filters =>
    match eval fl X isRule true (cnt + 1) facts filters with
    | .error e => .error e
    | .ok (left, facts) =>
      match eval fl Y isRule false (cnt + 1) facts filters with
      | .error e => .error e
      | .ok (right, facts) =>
        match Op with
        | .ADD =>
          match arith fl fl.add left right with
          | .error e => .error e
          | .ok s => .ok (s, facts)
        | .SUB =>
          match arith fl fl.sub left right with
          | .error e => .error e
          | .ok s => .ok (s, facts)
        | .MUL =>
          match arith fl fl.mul left right with
          | .error e => .error e
          | .ok s => .ok (s, facts)
        | .QUO =>
          match arith fl fl.quo left right with
          | .error e => .error e
          | .ok s => .ok (s, facts)
        | .LAND =>
          if left = "true" ∧ right = "true" then .ok ("true", facts) else .ok ("false", facts)
        | .LOR =>
          if left = "true" ∨ right = "true" then .ok ("true", facts) else .ok ("false", facts)
        | .NEQ =>
          if HasPrefix right "xls" then
            match facts left with
            | some v =>
              let key := right ++ "-" ++ v
              if filters key then .ok ("true", facts) else .ok ("false", facts)
            | none => .ok ("false", facts)
          else if facts.index left ≠ right then .ok ("true", facts) else .ok ("false", facts)
        | .EQL =>
          if isRule then
            if HasPrefix right "xls" then
              match facts left with
              | some v =>
                let key := right ++ "-" ++ v
                if filters key then .ok ("true", facts) else .ok ("false", facts)
              | none => .ok ("false", facts)
            else if facts.index left = right then .ok ("true", facts) else .ok ("false", facts)
          else .ok ("", facts.set left right)
        | _ => .ok ("", facts)
end

/-! ## The rule runner -/

/-- The action loop of `exeAstNodes`: every tree in order, in action context, each
returned string discarded. -/
def evalActions (fl : Float64Lib) : List Expr → Facts → Filters → Run Facts
  | [], facts, _ => .ok facts
  | action :: rest, facts, filters =>
    match eval fl action false true 0 facts filters with
    | .error e => .error e
    | .ok (_, facts) => evalActions fl rest facts filters

/-- `exeAstNodes`: the returned `err` (`none` = nil) and the fact table left behind.
A rule name without compiled entry makes `astNode.expr` dereference nil; the deferred
`recover` turns that panic into the returned error. -/
def exeAstNodes (fl : Float64Lib) (g : Globals) (ruleName : String) (_actions : List String)
    (facts : Facts) (filters : Filters) : Run (Option String × Facts) :=
  match g.astNodes ruleName with
  | none =>
    .ok (some ("error in exeAstNodes : " ++
      "runtime error: invalid memory address or nil pointer dereference"), facts)
  | some astNode =>
    match eval fl astNode.expr true true 0 facts filters with
    | .error e => .error e
    | .ok (v, facts) =>
      if v = "true" then
        let facts := facts.set "trace" (facts.index "trace" ++ ruleName ++ ";")
        match evalActions fl astNode.actionExpr facts filters with
        | .error e => .error e
        | .ok facts => .ok (none, facts)
      else .ok (none, facts)

/-- The rule loop of `ExeBrePkg`: `exeAstNodes` per rule in declared order, its returned
error dropped. -/
def exeRules (fl : Float64Lib) (g : Globals) : List ruleSet → Facts → Run Facts
  | [], facts => .ok facts
  | v :: rest, facts =>
    match exeAstNodes fl g v.RuleName v.Actions facts g.filters with
    | .error e => .error e
    | .ok (_, facts) => exeRules fl g rest facts

/-- What `json.Unmarshal(factBody, &facts)` makes of the request body: an error, the
nil map (JSON `null`), or a table. -/
inductive FactBody where
  | invalid (msg : String)
  | null
  | object (facts : Facts)

/-- `ExeBrePkg`: the pair `(results, err)`, `none` for nil. A panic (decoding error,
write to the nil map) is recovered into `err` with `results` left nil. -/
def ExeBrePkg (fl : Float64Lib) (g : Globals) (factBody : FactBody) :
    Run (Option Facts × Option String) :=
  match factBody with
  | .invalid msg => .ok (none, some ("error in Function ExeBrePkg : " ++ msg))
  | .null => .ok (none, some ("error in Function ExeBrePkg : " ++ "assignment to entry in nil map"))
  | .object facts =>
    let facts := facts.set "trace" ""
    match exeRules fl g g.brePackage.RuleSet facts with
    | .error e => .error e
    | .ok facts => .ok (some facts, none)

/-! ## Loading a package -/

/-- Go `astNodes[name] = node` on the compiled-rule map `map[string]*astNode`. -/
def astNodesSet (astNodes : String → Option astNode) (name : String) (node : astNode) :
    String → Option astNode :=
  fun x => if x = name then some node else astNodes x

/-- The action loop of `compile` for the rule `RuleName`: the returned `err` of `compile`
(`none` while nothing panicked) and the map left behind. An action text that does not
parse ends the process through `log.Fatal(actionErr)`; a parsed action is appended to
the `actionExpr` of the node the map holds for `RuleName`. -/
def compileActions (ParseExpr : String → Except String Expr) (RuleName : String) :
    List String → (String → Option astNode) → Run (Option String × (String → Option astNode))
  | [], astNodes => .ok (none, astNodes)
  | action :: rest, astNodes =>
    match ParseExpr action with
    | .error actionErr => .error ⟨actionErr⟩
    | .ok actionExpr =>
      match astNodes RuleName with
      | none =>
        .ok (some ("error in compile : " ++
          "runtime error: invalid memory address or nil pointer dereference"), astNodes)
      | some node =>
        compileActions ParseExpr RuleName rest
          (astNodesSet astNodes RuleName
            { node with actionExpr := node.actionExpr ++ [actionExpr] })

/-- The rule loop of `compile`: a condition text that does not parse panics, and the
deferred `recover` returns it as `err`, leaving the map as built so far. -/
def compileRules (ParseExpr : String → Except String Expr) :
    List ruleSet → (String → Option astNode) → Run (Option String × (String → Option astNode))
  | [], astNodes => .ok (none, astNodes)
  | rule :: rest, astNodes =>
    match ParseExpr rule.Rule with
    | .error ruleErr => .ok (some ("error in compile : " ++ ruleErr), astNodes)
    | .ok ruleExpr =>
      let astNodes := astNodesSet astNodes rule.RuleName ⟨rule.RuleName, ruleExpr, []⟩
      match compileActions ParseExpr rule.RuleName rule.Actions astNodes with
      | .error e => .error e
      | .ok (some err, astNodes) => .ok (some err, astNodes)
      | .ok (none, astNodes) => compileRules ParseExpr rest astNodes

/-- `compile`: the returned `err` and the value it leaves in the global `astNodes`, which
it replaces by a fresh map before the first rule. -/
def compile (ParseExpr : String → Except String Expr) (brePackage : BrePkg) :
    Run (Option String × (String → Option astNode)) :=
  compileRules ParseExpr brePackage.RuleSet (fun _ => none)

/-- What `json.Unmarshal(pBrePackage, &brePackage)` makes of the package document: an
error, with the value the failed decoding leaves in the global `brePackage`, or the
decoded package. -/
inductive PkgBody where
  | invalid (msg : String) (left : BrePkg)
  | decoded (pkg : BrePkg)

/-- `SetBrePkg`: the pair `(success, err)` and the package-level variables it leaves
behind. The filter set is replaced first, the package is decoded into the global, the
filters are entered and `compile` runs last; a panic is recovered into `err` with
`success` left false. -/
def SetBrePkg (ParseExpr : String → Except String Expr) (g : Globals) (pBrePackage : PkgBody) :
    Run ((Bool × Option String) × Globals) :=
  match pBrePackage with
  | .invalid msg left =>
    .ok ((false, some ("error in Function SetBrePkg : " ++ msg)),
      { astNodes := g.astNodes, filters := Filters.ofList [], brePackage := left })
  | .decoded brePackage =>
    let filters := Filters.ofList brePackage.Filters
    match compile ParseExpr brePackage with
    | .error e => .error e
    | .ok (some compileErr, astNodes) =>
      .ok ((false, some ("error in Function SetBrePkg : " ++ compileErr)),
        { astNodes := astNodes, filters := filters, brePackage := brePackage })
    | .ok (none, astNodes) =>
      .ok ((true, none), { astNodes := astNodes, filters := filters, brePackage := brePackage })

/-! ## Concrete packages and trees used in the examples -/

/-- The tree of `name == value` for an identifier and an integer literal. -/
def identEqlInt (name value : String) : Expr :=
  .Binary (.mk (.Ident name) .EQL (.BasicLit .INT value))

/-- The tree of `left <op> right` for two identifiers. -/
def identOpIdent (left : String) (op : Token) (right : String) : Expr :=
  .Binary (.mk (.Ident left) op (.Ident right))

/-- The compiled state of the two-rule package: `R1` with condition `a==1` and the
action assigning 2 to `b`, then `R2` with condition `b==2` and the action assigning 3
to `c` (an assignment is the `==` tree evaluated in action context). -/
def orderingGlobals : Globals where
  astNodes := fun k =>
    if k = "R1" then some ⟨"R1", identEqlInt "a" "1", [identEqlInt "b" "2"]⟩
    else if k = "R2" then some ⟨"R2", identEqlInt "b" "2", [identEqlInt "c" "3"]⟩
    else none
  filters := Filters.ofList []
  brePackage :=
    { PkgName := "ordering", ValidFrom := "", ValidTo := "",
      RuleSet := [⟨"R1", "a==1", ["b==2"]⟩, ⟨"R2", "b==2", ["c==3"]⟩],
      Filters := [] }

/-- The trees whose root, inside any enclosing parentheses, is a binary operation with
one of the operators `&&`, `||`, `==`, `!=`. -/
def boolRoot : Expr → Bool
  | .ParenExpr X => boolRoot X
  | .Binary (.mk _ op _) => op = .LAND || op = .LOR || op = .EQL || op = .NEQ
  | _ => false

/-- The compiled state of a one-rule package: `R` with condition `a==1` and the two
actions assigning 2 to `b` and 3 to `c`. -/
def oneRuleGlobals : Globals where
  astNodes := fun k =>
    if k = "R" then some ⟨"R", identEqlInt "a" "1", [identEqlInt "b" "2", identEqlInt "c" "3"]⟩
    else none
  filters := Filters.ofList []
  brePackage :=
    { PkgName := "one", ValidFrom := "", ValidTo := "",
      RuleSet := [⟨"R", "a==1", ["b==2", "c==3"]⟩],
      Filters := [] }

/-- The message standing for what `go/parser` reports on the text `(`. -/
def parseErrorText : String := "1:2: expected operand"

/-- `parser.ParseExpr` as a table over the texts of the examples: the comparisons
`a==1`, `b==2`, `c==3`, `x==1`, `y==2` parse to their trees and `(` does not parse;
texts outside the table are treated as not parsing. -/
def tableParseExpr (text : String) : Except String Expr :=
  if text = "a==1" then .ok (identEqlInt "a" "1")
  else if text = "b==2" then .ok (identEqlInt "b" "2")
  else if text = "c==3" then .ok (identEqlInt "c" "3")
  else if text = "x==1" then .ok (identEqlInt "x" "1")
  else if text = "y==2" then .ok (identEqlInt "y" "2")
  else .error parseErrorText

/-- The tree a text of the table parses to (`Other` for the rest). -/
def tableParse (text : String) : Expr :=
  match tableParseExpr text with
  | .ok e => e
  | .error _ => .Other

/-- The rule of `rules` that bears `name` and comes last in the list. -/
def lastRuleNamed (rules : List ruleSet) (name : String) : Option ruleSet :=
  rules.reverse.find? (fun r => r.RuleName = name)

/-- The compiled entry of a rule whose texts parse to the trees `parse` gives: its
name, the condition tree and the action trees in declared order. -/
def compiledEntry (parse : String → Expr) (r : ruleSet) : astNode :=
  ⟨r.RuleName, parse r.Rule, r.Actions.map parse⟩

/-- The compiled-rule map described rule by rule: under every name the entry of the last
rule of `rules` bearing it, and `astNodes` under the names no rule bears. -/
def compiledOver (parse : String → Expr) (astNodes : String → Option astNode)
    (rules : List ruleSet) : String → Option astNode :=
  fun name =>
    match lastRuleNamed rules name with
    | some r => some (compiledEntry parse r)
    | none => astNodes name

/-- Every condition and action text of `rules` parses, to the tree `parse` gives. -/
def ParsesAll (ParseExpr : String → Except String Expr) (parse : String → Expr)
    (rules : List ruleSet) : Prop :=
  ∀ r ∈ rules, ParseExpr r.Rule = .ok (parse r.Rule) ∧
    ∀ a ∈ r.Actions, ParseExpr a = .ok (parse a)

/-- A package with the rule name `R` used twice: `a==1` assigning 2 to `b`, then `b==2`
assigning 3 to `c`. -/
def duplicatePkg : BrePkg where
  PkgName := "duplicate"
  ValidFrom := ""
  ValidTo := ""
  RuleSet := [⟨"R", "a==1", ["b==2"]⟩, ⟨"R", "b==2", ["c==3"]⟩]
  Filters := []

/-- A package whose second rule has the malformed condition `(`: `S1` (`x==1` assigning
2 to `y`), then `S2`, with the filter key `xlsSeg-10`. -/
def malformedPkg : BrePkg where
  PkgName := "malformed"
  ValidFrom := ""
  ValidTo := ""
  RuleSet := [⟨"S1", "x==1", ["y==2"]⟩, ⟨"S2", "(", []⟩]
  Filters := ["xlsSeg-10"]

/-- The compiled state of a one-rule package whose action adds two facts: `R` with
condition `a==1` and the action assigning `c + a` to `b`. -/
def arithGlobals : Globals where
  astNodes := fun k =>
    if k = "R" then
      some ⟨"R", identEqlInt "a" "1",
        [.Binary (.mk (.Ident "b") .EQL (identOpIdent "c" .ADD "a"))]⟩
    else none
  filters := Filters.ofList []
  brePackage :=
    { PkgName := "arith", ValidFrom := "", ValidTo := "",
      RuleSet := [⟨"R", "a==1", ["b==c+a"]⟩],
      Filters := [] }

/-! ## Whole numbers in binary64

The part of IEEE 754 binary64 on which the arithmetic claims are evaluated: values that
are whole numbers (with the two zeros), the infinities and NaN. These values are closed
under `+`, `-` and `*`. -/

/-- The number written by a list of decimal digits, read after the digits that gave
`acc`; `none` at a character that is not a digit. -/
def digitsValue : List Char → Nat → Option Nat
  | [], acc => some acc
  | c :: cs, acc => if c.isDigit then digitsValue cs (acc * 10 + (c.toNat - 48)) else none

/-- The natural number written by a non-empty list of decimal digits. -/
def decimalDigits : List Char → Option Nat
  | [] => none
  | c :: cs => digitsValue (c :: cs) 0

/-- The number of binary digits of `n`, by halving at most `fuel` times. -/
def bitLengthAux : Nat → Nat → Nat
  | 0, _ => 0
  | fuel + 1, n => if n = 0 then 0 else bitLengthAux fuel (n / 2) + 1

/-- The number of binary digits of `n` (0 for 0). -/
def bitLength (n : Nat) : Nat := bitLengthAux n n

/-- Rounding of a natural number to 53 significant binary digits, to nearest, a tie going
to the even significand: the binary64 number nearest to `n`, when it is finite. -/
def roundToEven53 (n : Nat) : Nat :=
  if bitLength n ≤ 53 then n
  else
    let sh := bitLength n - 53
    let q := n / 2 ^ sh
    let rem := n % 2 ^ sh
    let half := 2 ^ (sh - 1)
    (if rem > half ∨ (rem = half ∧ q % 2 = 1) then q + 1 else q) * 2 ^ sh

/-- A binary64 value that is a whole number, given by sign and magnitude (so that -0 is a
value), an infinity or NaN. -/
inductive Whole64 where
  | fin (neg : Bool) (mag : Nat)
  | inf (neg : Bool)
  | nan
  deriving DecidableEq, Repr

/-- The binary64 value of the whole number of sign `neg` and magnitude `n`: rounded to 53
significant digits, an infinity when the rounded magnitude reaches 2^1024. -/
def Whole64.rounded (neg : Bool) (n : Nat) : Whole64 :=
  if bitLength (roundToEven53 n) ≤ 1024 then .fin neg (roundToEven53 n) else .inf neg

/-- The binary64 sum. A sum of two values of one sign keeps the sign; an exact
cancellation gives +0. -/
def Whole64.add : Whole64 → Whole64 → Whole64
  | .nan, _ => .nan
  | _, .nan => .nan
  | .inf s, .inf t => if s = t then .inf s else .nan
  | .inf s, .fin _ _ => .inf s
  | .fin _ _, .inf t => .inf t
  | .fin s m, .fin t k =>
    if s = t then Whole64.rounded s (m + k)
    else if m = k then .fin false 0
    else if k < m then Whole64.rounded s (m - k)
    else Whole64.rounded t (k - m)

/-- The value with the opposite sign. -/
def Whole64.negate : Whole64 → Whole64
  | .fin s m => .fin (!s) m
  | .inf s => .inf (!s)
  | .nan => .nan

/-- The binary64 difference, `x + (-y)`. -/
def Whole64.sub (x y : Whole64) : Whole64 := Whole64.add x (Whole64.negate y)

/-- The binary64 product: the sign is the exclusive or of the signs, also for a zero. -/
def Whole64.mul : Whole64 → Whole64 → Whole64
  | .nan, _ => .nan
  | _, .nan => .nan
  | .inf s, .inf t => .inf (s != t)
  | .inf s, .fin t k => if k = 0 then .nan else .inf (s != t)
  | .fin s m, .inf t => if m = 0 then .nan else .inf (s != t)
  | .fin s m, .fin t k => Whole64.rounded (s != t) (m * k)

/-- The binary64 quotient where it is a whole number, an infinity or NaN. A quotient
that is not a whole number lies outside these values and is not described: NaN stands
in for it. -/
def Whole64.quo : Whole64 → Whole64 → Whole64
  | .nan, _ => .nan
  | _, .nan => .nan
  | .inf _, .inf _ => .nan
  | .inf s, .fin t _ => .inf (s != t)
  | .fin s _, .inf t => .fin (s != t) 0
  | .fin s m, .fin t k =>
    if k = 0 then (if m = 0 then .nan else .inf (s != t))
    else if m % k = 0 then .fin (s != t) (m / k)
    else .nan

/-- The value `strconv.ParseFloat` returns without error for the digits `cs` under the
sign `neg`; none when `cs` is no decimal number or the value is out of range. -/
def Whole64.ofDigits (neg : Bool) (cs : List Char) : Option Whole64 :=
  match decimalDigits cs with
  | none => none
  | some n =>
    match Whole64.rounded neg n with
    | .fin s m => some (.fin s m)
    | _ => none

/-- `strconv.ParseFloat(s, 64)` on decimal whole numbers with an optional sign. Every
other text (fractions, exponents, hexadecimal, `inf`, `nan`) is treated as not
converting. -/
def Whole64.parse (s : String) : Option Whole64 :=
  match s.data with
  | '-' :: cs => Whole64.ofDigits true cs
  | '+' :: cs => Whole64.ofDigits false cs
  | cs => Whole64.ofDigits false cs

theorem Facts.set_same (m : Facts) (k v : String) : m.set k v k = some v := by
  simp [Facts.set]

theorem Facts.set_other (m : Facts) (k v x : String) (h : x ≠ k) : m.set k v x = m x := by
  simp [Facts.set, h]

mutual
/-- In condition context `eval` hands back the fact table it was given. -/
theorem eval_condition_facts (fl : Float64Lib) :
    ∀ (e : Expr) (isLeft : Bool) (cnt : Int) (facts : Facts) (filters : Filters)
      (s : String) (f : Facts),
      eval fl e true isLeft cnt facts filters = .ok (s, f) → f = facts
  | .Binary b, isLeft, cnt, facts, filters, s, f, h => by
    rw [eval] at h
    exact evalBinaryExpr_condition_facts fl b isLeft cnt facts filters s f h
  | .BasicLit k v, isLeft, cnt, facts, filters, s, f, h => by
    cases k <;> simp [eval] at h <;> exact h.2.symm
  | .ParenExpr X, isLeft, cnt, facts, filters, s, f, h => by
    rw [eval] at h
    exact eval_condition_facts fl X isLeft cnt facts filters s f h
  | .Ident n, isLeft, cnt, facts, filters, s, f, h => by
    simp [eval] at h
    exact h.2.symm
  | .Other, isLeft, cnt, facts, filters, s, f, h => by
    simp [eval] at h
    exact h.2.symm
/-- In condition context `evalBinaryExpr` hands back the fact table it was given. -/
theorem evalBinaryExpr_condition_facts (fl : Float64Lib) :
    ∀ (b : BinaryExpr) (isLeft : Bool) (cnt : Int) (facts : Facts) (filters : Filters)
      (s : String) (f : Facts),
      evalBinaryExpr fl b true isLeft cnt facts filters = .ok (s, f) → f = facts
  | .mk X Op Y, isLeft, cnt, facts, filters, s, f, h => by
    rw [evalBinaryExpr] at h
    cases hx : eval fl X true true (cnt + 1) facts filters with
    | error e => simp [hx] at h
    | ok r1 =>
      obtain ⟨l, f1⟩ := r1
      have e1 := eval_condition_facts fl X true (cnt + 1) facts filters l f1 hx
      subst e1
      cases hy : eval fl Y true false (cnt + 1) f1 filters with
      | error e => simp [hx, hy] at h
      | ok r2 =>
        obtain ⟨r, f2⟩ := r2
        have e2 := eval_condition_facts fl Y false (cnt + 1) f1 filters r f2 hy
        subst e2
        simp only [hx, hy] at h
        cases Op <;> simp only [if_true] at h
        all_goals (repeat' split at h)
        all_goals first
          | (cases h; rfl)
          | (cases h)
end

/-- The action loop is the left fold of action-context `eval` over the action trees,
threading the fact table and dropping each returned string. -/
theorem evalActions_eq_foldlM (fl : Float64Lib) (filters : Filters) :
    ∀ (actions : List Expr) (facts : Facts),
      evalActions fl actions facts filters =
        actions.foldlM (fun f a => (eval fl a false true 0 f filters).map Prod.snd) facts
  | [], facts => rfl
  | a :: rest, facts => by
    rw [evalActions, List.foldlM_cons]
    cases h : eval fl a false true 0 facts filters with
    | error e => rfl
    | ok r =>
      obtain ⟨s, f⟩ := r
      exact evalActions_eq_foldlM fl filters rest f

theorem astNodesSet_same (m : String → Option astNode) (name : String) (node : astNode) :
    astNodesSet m name node name = some node := by
  simp [astNodesSet]

theorem astNodesSet_set (m : String → Option astNode) (name : String) (n1 n2 : astNode) :
    astNodesSet (astNodesSet m name n1) name n2 = astNodesSet m name n2 := by
  funext x
  by_cases h : x = name <;> simp [astNodesSet, h]

/-- The action loop of `compile` on texts that all parse: no error, and the node of the
rule has gained the parsed actions, in order, behind those it had. -/
theorem compileActions_parses (ParseExpr : String → Except String Expr)
    (parse : String → Expr) (RuleName : String) :
    ∀ (actions : List String) (m : String → Option astNode) (node : astNode),
      m RuleName = some node →
      (∀ a ∈ actions, ParseExpr a = .ok (parse a)) →
      compileActions ParseExpr RuleName actions m =
        .ok (none, astNodesSet m RuleName
          { node with actionExpr := node.actionExpr ++ actions.map parse })
  | [], m, node, hm, _ => by
    have : astNodesSet m RuleName { node with actionExpr := node.actionExpr ++ [].map parse }
        = m := by
      funext x
      by_cases h : x = RuleName
      · subst h; simp [astNodesSet, hm]
      · simp [astNodesSet, h]
    rw [this, compileActions]
  | a :: rest, m, node, hm, hp => by
    have ha : ParseExpr a = .ok (parse a) := hp a (List.mem_cons_self a rest)
    have hrest : ∀ b ∈ rest, ParseExpr b = .ok (parse b) :=
      fun b hb => hp b (List.mem_cons_of_mem a hb)
    simp only [compileActions, ha, hm]
    rw [compileActions_parses ParseExpr parse RuleName rest _ _
      (astNodesSet_same m RuleName _) hrest, astNodesSet_set]
    simp

theorem lastRuleNamed_nil (name : String) : lastRuleNamed [] name = none := rfl

theorem lastRuleNamed_cons (r : ruleSet) (rules : List ruleSet) (name : String) :
    lastRuleNamed (r :: rules) name =
      match lastRuleNamed rules name with
      | some r2 => some r2
      | none => if r.RuleName = name then some r else none := by
  simp only [lastRuleNamed, List.reverse_cons, List.find?_append]
  cases List.find? (fun r => decide (r.RuleName = name)) rules.reverse with
  | some r2 => simp
  | none =>
    by_cases h : r.RuleName = name <;> simp [List.find?, h]

theorem compiledOver_nil (parse : String → Expr) (m : String → Option astNode) :
    compiledOver parse m [] = m := by
  funext x
  simp [compiledOver, lastRuleNamed_nil]

theorem compiledOver_cons (parse : String → Expr) (m : String → Option astNode)
    (r : ruleSet) (rules : List ruleSet) :
    compiledOver parse (astNodesSet m r.RuleName (compiledEntry parse r)) rules =
      compiledOver parse m (r :: rules) := by
  funext x
  simp only [compiledOver, lastRuleNamed_cons]
  cases lastRuleNamed rules x with
  | some r2 => rfl
  | none =>
    by_cases h : r.RuleName = x
    · subst h; simp [astNodesSet]
    · have h2 : x ≠ r.RuleName := fun e => h e.symm
      simp [astNodesSet, h, h2]

/-- The rule loop of `compile` over a list whose first part `pre` parses: it reaches the
rest of the list with the map holding, over what it held, the entries of `pre`. -/
theorem compileRules_append (ParseExpr : String → Except String Expr)
    (parse : String → Expr) (rest : List ruleSet) :
    ∀ (pre : List ruleSet) (m : String → Option astNode),
      ParsesAll ParseExpr parse pre →
      compileRules ParseExpr (pre ++ rest) m =
        compileRules ParseExpr rest (compiledOver parse m pre)
  | [], m, _ => by rw [compiledOver_nil, List.nil_append]
  | r :: pre, m, hp => by
    have hr := hp r (List.mem_cons_self r pre)
    have hpre : ParsesAll ParseExpr parse pre :=
      fun r2 h2 => hp r2 (List.mem_cons_of_mem r h2)
    have hacts := compileActions_parses ParseExpr parse r.RuleName r.Actions
      (astNodesSet m r.RuleName ⟨r.RuleName, parse r.Rule, []⟩) _
      (astNodesSet_same m r.RuleName _) hr.2
    rw [astNodesSet_set] at hacts
    simp only [List.cons_append, compileRules, hr.1, hacts, List.nil_append]
    exact (compileRules_append ParseExpr parse rest pre _ hpre).trans
      (congrArg _ (compiledOver_cons parse m r pre))

theorem lastRuleNamed_isSome (rules : List ruleSet) (name : String) :
    (lastRuleNamed rules name).isSome = true ↔ ∃ r ∈ rules, r.RuleName = name := by
  simp [lastRuleNamed, List.find?_isSome]

theorem lastRuleNamed_name (rules : List ruleSet) (name : String) (r : ruleSet)
    (h : lastRuleNamed rules name = some r) : r ∈ rules ∧ r.RuleName = name := by
  unfold lastRuleNamed at h
  have h1 := List.mem_of_find?_eq_some h
  have h2 := List.find?_some h
  exact ⟨List.mem_reverse.mp h1, by simpa using h2⟩

/-- With pairwise distinct rule names, the last rule bearing the name of a rule of the
list is that rule. -/
theorem lastRuleNamed_of_nodup (rules : List ruleSet)
    (hnd : (rules.map (fun r => r.RuleName)).Nodup) (r : ruleSet) (hr : r ∈ rules) :
    lastRuleNamed rules r.RuleName = some r := by
  cases h : lastRuleNamed rules r.RuleName with
  | none =>
    have hs := (lastRuleNamed_isSome rules r.RuleName).mpr ⟨r, hr, rfl⟩
    rw [h] at hs
    cases hs
  | some r2 =>
    obtain ⟨hmem, hname⟩ := lastRuleNamed_name rules r.RuleName r2 h
    rw [List.inj_on_of_nodup_map hnd hmem hr hname]

/-- Every text of the two-rule package `R1`, `R2` parses. -/
theorem orderingPkg_parses :
    ParsesAll tableParseExpr tableParse orderingGlobals.brePackage.RuleSet := by
  intro r hr
  simp only [orderingGlobals, List.mem_cons, List.mem_singleton, List.not_mem_nil,
    or_false] at hr
  rcases hr with rfl | rfl
  · refine ⟨rfl, ?_⟩
    intro a ha
    simp only [List.mem_singleton] at ha
    subst ha
    rfl
  · refine ⟨rfl, ?_⟩
    intro a ha
    simp only [List.mem_singleton] at ha
    subst ha
    rfl

theorem Facts.set_isSome (m : Facts) (k v x : String) (h : (m x).isSome = true) :
    (m.set k v x).isSome = true := by
  by_cases hx : x = k <;> simp [Facts.set, hx, h]

mutual
/-- A name present in the fact table before `eval` is present in the table it returns. -/
theorem eval_keeps_names (fl : Float64Lib) :
    ∀ (e : Expr) (isRule isLeft : Bool) (cnt : Int) (facts : Facts) (filters : Filters)
      (s : String) (f : Facts),
      eval fl e isRule isLeft cnt facts filters = .ok (s, f) →
      ∀ k, (facts k).isSome = true → (f k).isSome = true
  | .Binary b, isRule, isLeft, cnt, facts, filters, s, f, h => by
    rw [eval] at h
    exact evalBinaryExpr_keeps_names fl b isRule isLeft cnt facts filters s f h
  | .BasicLit kind v, isRule, isLeft, cnt, facts, filters, s, f, h => by
    cases kind <;> simp [eval] at h <;> (intro k hk; rw [← h.2]; exact hk)
  | .ParenExpr X, isRule, isLeft, cnt, facts, filters, s, f, h => by
    rw [eval] at h
    exact eval_keeps_names fl X isRule isLeft cnt facts filters s f h
  | .Ident n, isRule, isLeft, cnt, facts, filters, s, f, h => by
    simp only [eval] at h
    repeat' split at h
    all_goals (cases h; exact fun k hk => hk)
  | .Other, isRule, isLeft, cnt, facts, filters, s, f, h => by
    simp [eval] at h
    intro k hk
    rw [← h.2]
    exact hk
/-- A name present in the fact table before `evalBinaryExpr` is present in the table it
returns. -/
theorem evalBinaryExpr_keeps_names (fl : Float64Lib) :
    ∀ (b : BinaryExpr) (isRule isLeft : Bool) (cnt : Int) (facts : Facts) (filters : Filters)
      (s : String) (f : Facts),
      evalBinaryExpr fl b isRule isLeft cnt facts filters = .ok (s, f) →
      ∀ k, (facts k).isSome = true → (f k).isSome = true
  | .mk X Op Y, isRule, isLeft, cnt, facts, filters, s, f, h => by
    rw [evalBinaryExpr] at h
    cases hx : eval fl X isRule true (cnt + 1) facts filters with
    | error e => simp [hx] at h
    | ok r1 =>
      obtain ⟨l, f1⟩ := r1
      have n1 := eval_keeps_names fl X isRule true (cnt + 1) facts filters l f1 hx
      cases hy : eval fl Y isRule false (cnt + 1) f1 filters with
      | error e => simp [hx, hy] at h
      | ok r2 =>
        obtain ⟨r, f2⟩ := r2
        have n2 := eval_keeps_names fl Y isRule false (cnt + 1) f1 filters r f2 hy
        have key : ∀ k, (facts k).isSome = true → (f2 k).isSome = true :=
          fun k hk => n2 k (n1 k hk)
        have keyset : ∀ k, (facts k).isSome = true → (f2.set l r k).isSome = true :=
          fun k hk => Facts.set_isSome f2 l r k (key k hk)
        simp only [hx, hy] at h
        cases Op <;> simp only at h
        all_goals (repeat' split at h)
        all_goals first
          | (cases h; exact key)
          | (cases h; exact keyset)
          | (cases h)
end

/-- The action loop keeps every name of the fact table. -/
theorem evalActions_keeps_names (fl : Float64Lib) (filters : Filters) :
    ∀ (actions : List Expr) (facts f : Facts),
      evalActions fl actions facts filters = .ok f →
      ∀ k, (facts k).isSome = true → (f k).isSome = true
  | [], facts, f, h => by
    simp only [evalActions] at h
    cases h
    exact fun k hk => hk
  | a :: rest, facts, f, h => by
    rw [evalActions] at h
    cases ha : eval fl a false true 0 facts filters with
    | error e => simp [ha] at h
    | ok r =>
      obtain ⟨s, f1⟩ := r
      simp only [ha] at h
      exact fun k hk => evalActions_keeps_names fl filters rest f1 f h k
        (eval_keeps_names fl a false true 0 facts filters s f1 ha k hk)

/-- One rule keeps every name of the fact table. -/
theorem exeAstNodes_keeps_names (fl : Float64Lib) (g : Globals) (ruleName : String)
    (actions : List String) (facts f : Facts) (filters : Filters) (err : Option String)
    (h : exeAstNodes fl g ruleName actions facts filters = .ok (err, f)) :
    ∀ k, (facts k).isSome = true → (f k).isSome = true := by
  unfold exeAstNodes at h
  cases hn : g.astNodes ruleName with
  | none =>
    simp only [hn] at h
    cases h
    exact fun k hk => hk
  | some node =>
    simp only [hn] at h
    cases hc : eval fl node.expr true true 0 facts filters with
    | error e => simp [hc] at h
    | ok r =>
      obtain ⟨v, f1⟩ := r
      have e1 := eval_condition_facts fl node.expr true 0 facts filters v f1 hc
      subst e1
      simp only [hc] at h
      by_cases hv : v = "true"
      · simp only [hv, if_true] at h
        cases ha : evalActions fl node.actionExpr
            (f1.set "trace" (f1.index "trace" ++ ruleName ++ ";")) filters with
        | error e => simp [ha] at h
        | ok f2 =>
          simp only [ha] at h
          cases h
          exact fun k hk => evalActions_keeps_names fl filters node.actionExpr _ _ ha k
            (Facts.set_isSome f1 _ _ k hk)
      · simp only [hv, if_false] at h
        cases h
        exact fun k hk => hk

/-- The rule loop keeps every name of the fact table. -/
theorem exeRules_keeps_names (fl : Float64Lib) (g : Globals) :
    ∀ (rules : List ruleSet) (facts f : Facts),
      exeRules fl g rules facts = .ok f →
      ∀ k, (facts k).isSome = true → (f k).isSome = true
  | [], facts, f, h => by
    simp only [exeRules] at h
    cases h
    exact fun k hk => hk
  | v :: rest, facts, f, h => by
    rw [exeRules] at h
    cases hr : exeAstNodes fl g v.RuleName v.Actions facts g.filters with
    | error e => simp [hr] at h
    | ok r =>
      obtain ⟨err, f1⟩ := r
      simp only [hr] at h
      exact fun k hk => exeRules_keeps_names fl g rest f1 f h k
        (exeAstNodes_keeps_names fl g v.RuleName v.Actions facts f1 g.filters err hr k hk)

/-- The operand "abc" is not a number of the integer library. -/
theorem intLib_ParseFloat_abc : intLib.ParseFloat "abc" = none := by
  have h1 : ("abc".get 0 = '-') = False := by
    simp only [eq_iff_iff, iff_false]
    decide
  have h2 : ("abc".all fun x => x.isDigit) = false := by
    rw [String.all_eq]
    decide
  simp [intLib, String.toInt?, String.toNat?, String.isNat, h1, h2]

/-- The arithmetic body ends the process only on an operand `ParseFloat` rejects. -/
theorem arith_exit (fl : Float64Lib) (op : fl.float64 → fl.float64 → fl.float64)
    (left right : String) (m : Fatal) (h : arith fl op left right = .error m) :
    ∃ v, fl.ParseFloat v = none ∧ m = ⟨"Unable to convert " ++ v ++ " to float"⟩ := by
  unfold arith strToFloat64 at h
  cases hl : fl.ParseFloat left with
  | none =>
    simp only [hl] at h
    cases h
    exact ⟨left, hl, rfl⟩
  | some a =>
    cases hr : fl.ParseFloat right with
    | none =>
      simp only [hl, hr] at h
      cases h
      exact ⟨right, hr, rfl⟩
    | some b => simp [hl, hr] at h

mutual
/-- Whenever `eval` ends the process, it is the exit of `strToFloat64` on an operand that
`ParseFloat` rejects. -/
theorem eval_exit (fl : Float64Lib) :
    ∀ (e : Expr) (isRule isLeft : Bool) (cnt : Int) (facts : Facts) (filters : Filters)
      (m : Fatal),
      eval fl e isRule isLeft cnt facts filters = .error m →
      ∃ v, fl.ParseFloat v = none ∧ m = ⟨"Unable to convert " ++ v ++ " to float"⟩
  | .Binary b, isRule, isLeft, cnt, facts, filters, m, h => by
    rw [eval] at h
    exact evalBinaryExpr_exit fl b isRule isLeft cnt facts filters m h
  | .BasicLit kind v, isRule, isLeft, cnt, facts, filters, m, h => by
    cases kind <;> simp [eval] at h
  | .ParenExpr X, isRule, isLeft, cnt, facts, filters, m, h => by
    rw [eval] at h
    exact eval_exit fl X isRule isLeft cnt facts filters m h
  | .Ident n, isRule, isLeft, cnt, facts, filters, m, h => by
    simp only [eval] at h
    repeat' split at h
    all_goals cases h
  | .Other, isRule, isLeft, cnt, facts, filters, m, h => by
    simp [eval] at h
/-- Whenever `evalBinaryExpr` ends the process, it is the exit of `strToFloat64` on an
operand that `ParseFloat` rejects. -/
theorem evalBinaryExpr_exit (fl : Float64Lib) :
    ∀ (b : BinaryExpr) (isRule isLeft : Bool) (cnt : Int) (facts : Facts) (filters : Filters)
      (m : Fatal),
      evalBinaryExpr fl b isRule isLeft cnt facts filters = .error m →
      ∃ v, fl.ParseFloat v = none ∧ m = ⟨"Unable to convert " ++ v ++ " to float"⟩
  | .mk X Op Y, isRule, isLeft, cnt, facts, filters, m, h => by
    rw [evalBinaryExpr] at h
    cases hx : eval fl X isRule true (cnt + 1) facts filters with
    | error e =>
      simp only [hx, Except.error.injEq] at h
      rw [← h]
      exact eval_exit fl X isRule true (cnt + 1) facts filters e hx
    | ok r1 =>
      obtain ⟨l, f1⟩ := r1
      cases hy : eval fl Y isRule false (cnt + 1) f1 filters with
      | error e =>
        simp only [hx, hy, Except.error.injEq] at h
        rw [← h]
        exact eval_exit fl Y isRule false (cnt + 1) f1 filters e hy
      | ok r2 =>
        obtain ⟨r, f2⟩ := r2
        simp only [hx, hy] at h
        cases Op <;> simp only at h
        all_goals (repeat' split at h)
        all_goals first
          | (cases h; exact arith_exit fl _ l r _ (by assumption))
          | (cases h)
end

/-- C1 (rule ordering): running the two-rule package `R1` (`a==1`, assign 2 to `b`) then
`R2` (`b==2`, assign 3 to `c`) on the input facts `a = "1"` returns, with a nil error,
exactly the table `a = "1"`, `b = "2"`, `c = "3"`, `trace = "R1;R2;"`. -/
theorem ExeBrePkg_rule_ordering (fl : Float64Lib) :
    ExeBrePkg fl orderingGlobals (.object (Facts.ofList [("a", "1")])) =
      .ok (some (Facts.ofList [("a", "1"), ("b", "2"), ("c", "3"), ("trace", "R1;R2;")]),
        none) := by
  have key : exeRules fl orderingGlobals orderingGlobals.brePackage.RuleSet
      ((Facts.ofList [("a", "1")]).set "trace" "") =
      .ok (Facts.ofList [("a", "1"), ("b", "2"), ("c", "3"), ("trace", "R1;R2;")]) := by
    simp [orderingGlobals, exeRules, exeAstNodes, evalActions, identEqlInt, eval,
      evalBinaryExpr, HasPrefix, Facts.index, Facts.set, Facts.ofList, Facts.empty]
    funext k
    simp only [Facts.set]
    by_cases hc : k = "c"
    · subst hc; decide
    · by_cases ht : k = "trace"
      · subst ht; decide
      · simp [hc, ht]
  simp only [ExeBrePkg, key]

/-- C2 (dimension membership, `==`): in condition context, when the right operand
evaluates to a string starting with "xls", `X == Y` leaves the fact table alone and
yields "true" when the string `left` that `X` evaluates to names a present fact with
value `v` and the key `<right>-<v>` is in the filter set, and "false" in every other
case (fact absent, or key not in the set). -/
theorem eval_EQL_dimension (fl : Float64Lib) (X Y : Expr) (isLeft : Bool) (cnt : Int)
    (facts f1 f2 : Facts) (filters : Filters) (left right : String)
    (hX : eval fl X true true (cnt + 1) facts filters = .ok (left, f1))
    (hY : eval fl Y true false (cnt + 1) f1 filters = .ok (right, f2))
    (hp : HasPrefix right "xls" = true) :
    ∃ tok, eval fl (.Binary (.mk X .EQL Y)) true isLeft cnt facts filters = .ok (tok, facts) ∧
      (tok = "true" ∨ tok = "false") ∧
      (tok = "true" ↔ ∃ v, facts left = some v ∧ filters (right ++ "-" ++ v) = true) := by
  have e1 := eval_condition_facts fl X true (cnt + 1) facts filters left f1 hX
  subst e1
  have e2 := eval_condition_facts fl Y false (cnt + 1) f1 filters right f2 hY
  subst e2
  simp only [eval, evalBinaryExpr, hX, hY, hp, if_true]
  cases hv : f2 left with
  | none => exact ⟨"false", rfl, Or.inr rfl, by simp⟩
  | some v =>
    by_cases hk : filters (right ++ "-" ++ v) = true
    · exact ⟨"true", by simp [hk], Or.inl rfl, by simp [hk]⟩
    · exact ⟨"false", by simp [hk], Or.inr rfl, by simp [hk]⟩

/-- The examples of C2: with filter keys `["xlsSeg-10"]` the condition `region==xlsSeg`
yields "true" on `region = "10"`, "false" on `region = "99"` and "false" on a table
without `region`. -/
theorem eval_EQL_dimension_witness :
    eval intLib (identOpIdent "region" .EQL "xlsSeg") true true 0
        (Facts.ofList [("region", "10")]) (Filters.ofList ["xlsSeg-10"]) =
      .ok ("true", Facts.ofList [("region", "10")]) ∧
    eval intLib (identOpIdent "region" .EQL "xlsSeg") true true 0
        (Facts.ofList [("region", "99")]) (Filters.ofList ["xlsSeg-10"]) =
      .ok ("false", Facts.ofList [("region", "99")]) ∧
    eval intLib (identOpIdent "region" .EQL "xlsSeg") true true 0
        Facts.empty (Filters.ofList ["xlsSeg-10"]) =
      .ok ("false", Facts.empty) := by
  refine ⟨?_, ?_, ?_⟩
  · obtain ⟨tok, h, _, hiff⟩ := eval_EQL_dimension intLib (.Ident "region") (.Ident "xlsSeg")
      true 0 (Facts.ofList [("region", "10")]) _ _ (Filters.ofList ["xlsSeg-10"])
      "region" "xlsSeg" rfl rfl rfl
    have ht : tok = "true" := hiff.mpr ⟨"10", by decide, by decide⟩
    rw [identOpIdent, h, ht]
  · obtain ⟨tok, h, hb, hiff⟩ := eval_EQL_dimension intLib (.Ident "region") (.Ident "xlsSeg")
      true 0 (Facts.ofList [("region", "99")]) _ _ (Filters.ofList ["xlsSeg-10"])
      "region" "xlsSeg" rfl rfl rfl
    have hn : tok ≠ "true" := by
      intro ht
      obtain ⟨v, hv, hk⟩ := hiff.mp ht
      have : v = "99" := by
        have h99 : Facts.ofList [("region", "99")] "region" = some "99" := by decide
        rw [h99] at hv
        exact (Option.some.inj hv).symm
      subst this
      revert hk
      decide
    have ht : tok = "false" := hb.resolve_left hn
    rw [identOpIdent, h, ht]
  · obtain ⟨tok, h, hb, hiff⟩ := eval_EQL_dimension intLib (.Ident "region") (.Ident "xlsSeg")
      true 0 Facts.empty _ _ (Filters.ofList ["xlsSeg-10"])
      "region" "xlsSeg" rfl rfl rfl
    have hn : tok ≠ "true" := by
      intro ht
      obtain ⟨v, hv, _⟩ := hiff.mp ht
      simp [Facts.empty] at hv
    have ht : tok = "false" := hb.resolve_left hn
    rw [identOpIdent, h, ht]

/-- C3 (dimension membership, `!=`), the code at the failing input: with filter keys
`["xlsSeg-10"]` and the fact `region = "10"` the composite key `xlsSeg-10` is in the
filter set, and the condition `region != xlsSeg` yields "true", the same token as
`region == xlsSeg`, where the claim requires "false"; with `region = "99"` the key
`xlsSeg-99` is not in the set and `region != xlsSeg` yields "false", where the claim
requires "true". -/
theorem eval_NEQ_dimension_same_as_EQL :
    (Filters.ofList ["xlsSeg-10"] ("xlsSeg" ++ "-" ++ "10") = true ∧
      eval intLib (identOpIdent "region" .NEQ "xlsSeg") true true 0
          (Facts.ofList [("region", "10")]) (Filters.ofList ["xlsSeg-10"]) =
        .ok ("true", Facts.ofList [("region", "10")]) ∧
      eval intLib (identOpIdent "region" .EQL "xlsSeg") true true 0
          (Facts.ofList [("region", "10")]) (Filters.ofList ["xlsSeg-10"]) =
        .ok ("true", Facts.ofList [("region", "10")])) ∧
    (Filters.ofList ["xlsSeg-10"] ("xlsSeg" ++ "-" ++ "99") = false ∧
      eval intLib (identOpIdent "region" .NEQ "xlsSeg") true true 0
          (Facts.ofList [("region", "99")]) (Filters.ofList ["xlsSeg-10"]) =
        .ok ("false", Facts.ofList [("region", "99")])) :=
  ⟨⟨by decide, rfl, rfl⟩, by decide, rfl⟩

/-- C4 as stated fails: on the table `name = "x"` the action assigning `_literal` to
`name` returns the table in which `name` is still "x" (not "literal") and the text
"literal" is stored under `x`. -/
theorem eval_assign_literal_existing_name :
    ∃ f, eval intLib (identOpIdent "name" .EQL "_literal") false true 0
        (Facts.ofList [("name", "x")]) (Filters.ofList []) = .ok ("", f) ∧
      f "name" = some "x" ∧ f "name" ≠ some "literal" ∧ f "x" = some "literal" :=
  ⟨(Facts.ofList [("name", "x")]).set "x" "literal", rfl, by decide, by decide, by decide⟩

/-- C4 (escape marker), amended: for every fact table the action assigning `_literal` to
`name` stores the text "literal", never the value of a fact called `literal`, under the
name its left operand evaluates to in action context: `name` when no fact `name`
exists, the current value of `name` otherwise. Fact `name` equals "literal" afterwards
exactly when it was absent before or held "name" or "literal". -/
theorem eval_assign_literal (fl : Float64Lib) (isLeft : Bool) (cnt : Int) (facts : Facts)
    (filters : Filters) :
    eval fl (identOpIdent "name" .EQL "_literal") false isLeft cnt facts filters =
      .ok ("", facts.set ((facts "name").getD "name") "literal") ∧
    (facts.set ((facts "name").getD "name") "literal" "name" = some "literal" ↔
      facts "name" = none ∨ facts "name" = some "name" ∨ facts "name" = some "literal") := by
  have hn : HasPrefix "name" "_" = false := by decide
  have hl : HasPrefix "_literal" "_" = true := by decide
  have hs : sliceFrom1 "_literal" = "literal" := by decide
  constructor
  · cases hv : facts "name" <;>
      simp [identOpIdent, eval, evalBinaryExpr, hn, hl, hs, hv]
  · cases hv : facts "name" with
    | none => simp [Facts.set]
    | some v =>
      by_cases h : v = "name"
      · subst h; simp [Facts.set]
      · have h2 : "name" ≠ v := fun e => h e.symm
        simp [Facts.set, hv, h, h2]

/-- C5 (assignment): in action context `X == Y` returns the empty string and a table
that maps the string `left` that `X` evaluates to onto the string `right` that `Y`
evaluates to, every other name keeping the value it had after the two operands were
evaluated. -/
theorem eval_EQL_action_assigns (fl : Float64Lib) (X Y : Expr) (isLeft : Bool) (cnt : Int)
    (facts f1 f2 : Facts) (filters : Filters) (left right : String)
    (hX : eval fl X false true (cnt + 1) facts filters = .ok (left, f1))
    (hY : eval fl Y false false (cnt + 1) f1 filters = .ok (right, f2)) :
    ∃ f3, eval fl (.Binary (.mk X .EQL Y)) false isLeft cnt facts filters = .ok ("", f3) ∧
      f3 left = some right ∧ ∀ k, k ≠ left → f3 k = f2 k := by
  refine ⟨f2.set left right, ?_, Facts.set_same f2 left right,
    fun k hk => Facts.set_other f2 left right k hk⟩
  simp [eval, evalBinaryExpr, hX, hY]

/-- An instance of C5: on `a = "1"` the action `b == a` returns "" and a table with
`b = "1"` that agrees with the input table on every other name. -/
theorem eval_EQL_action_assigns_witness :
    ∃ f3, eval intLib (identOpIdent "b" .EQL "a") false true 0
        (Facts.ofList [("a", "1")]) (Filters.ofList []) = .ok ("", f3) ∧
      f3 "b" = some "1" ∧ ∀ k, k ≠ "b" → f3 k = Facts.ofList [("a", "1")] k :=
  eval_EQL_action_assigns intLib (.Ident "b") (.Ident "a") true 0
    (Facts.ofList [("a", "1")]) (Facts.ofList [("a", "1")]) (Facts.ofList [("a", "1")])
    (Filters.ofList []) "b" "1" rfl rfl

/-- C6 (plain comparison): in condition context, when the right operand evaluates to a
string `right` not starting with "xls", `X == Y` yields "true" exactly when the fact
table's value for the name `left` (the empty string when absent) equals `right` and
"false" otherwise, `X != Y` yields the opposite token, and neither changes the table. -/
theorem eval_EQL_NEQ_plain (fl : Float64Lib) (X Y : Expr) (isLeft : Bool) (cnt : Int)
    (facts f1 f2 : Facts) (filters : Filters) (left right : String)
    (hX : eval fl X true true (cnt + 1) facts filters = .ok (left, f1))
    (hY : eval fl Y true false (cnt + 1) f1 filters = .ok (right, f2))
    (hp : HasPrefix right "xls" = false) :
    eval fl (.Binary (.mk X .EQL Y)) true isLeft cnt facts filters =
      .ok (if (facts left).getD "" = right then "true" else "false", facts) ∧
    eval fl (.Binary (.mk X .NEQ Y)) true isLeft cnt facts filters =
      .ok (if (facts left).getD "" = right then "false" else "true", facts) := by
  have e1 := eval_condition_facts fl X true (cnt + 1) facts filters left f1 hX
  subst e1
  have e2 := eval_condition_facts fl Y false (cnt + 1) f1 filters right f2 hY
  subst e2
  have hi : Facts.index f2 left = (f2 left).getD "" := by
    unfold Facts.index
    cases f2 left <;> rfl
  constructor <;>
    by_cases h : (f2 left).getD "" = right <;>
    simp [eval, evalBinaryExpr, hX, hY, hp, hi, h]

/-- An instance of C6: on `a = "1"`, `a == 1` yields "true" and `a != 1` yields "false";
on the empty table, where `a` reads as "", they yield "false" and "true". -/
theorem eval_EQL_NEQ_plain_witness :
    (eval intLib (identEqlInt "a" "1") true true 0 (Facts.ofList [("a", "1")])
        (Filters.ofList []) = .ok ("true", Facts.ofList [("a", "1")]) ∧
      eval intLib (.Binary (.mk (.Ident "a") .NEQ (.BasicLit .INT "1"))) true true 0
        (Facts.ofList [("a", "1")]) (Filters.ofList []) =
          .ok ("false", Facts.ofList [("a", "1")])) ∧
    (eval intLib (identEqlInt "a" "1") true true 0 Facts.empty (Filters.ofList []) =
        .ok ("false", Facts.empty) ∧
      eval intLib (.Binary (.mk (.Ident "a") .NEQ (.BasicLit .INT "1"))) true true 0
        Facts.empty (Filters.ofList []) = .ok ("true", Facts.empty)) :=
  ⟨eval_EQL_NEQ_plain intLib (.Ident "a") (.BasicLit .INT "1") true 0
      (Facts.ofList [("a", "1")]) _ _ (Filters.ofList []) "a" "1" rfl rfl (by decide),
   eval_EQL_NEQ_plain intLib (.Ident "a") (.BasicLit .INT "1") true 0
      Facts.empty _ _ (Filters.ofList []) "a" "1" rfl rfl (by decide)⟩

/-- C7 as stated fails: a bare identifier is an expression that `compile` stores as a
condition, and in condition context it evaluates to its own name, which is neither
"true" nor "false". -/
theorem eval_condition_ident_not_boolean :
    eval intLib (.Ident "a") true true 0 Facts.empty (Filters.ofList []) =
      .ok ("a", Facts.empty) ∧ "a" ≠ "true" ∧ "a" ≠ "false" :=
  ⟨rfl, by decide, by decide⟩

/-- A tree with a boolean root evaluates, in condition context, to "true" or to "false"
on the table it was given, or ends the process. -/
theorem boolRoot_outcome (fl : Float64Lib) :
    ∀ (e : Expr) (isLeft : Bool) (cnt : Int) (facts : Facts) (filters : Filters),
      boolRoot e = true →
      (∃ msg, eval fl e true isLeft cnt facts filters = .error msg) ∨
      eval fl e true isLeft cnt facts filters = .ok ("true", facts) ∨
      eval fl e true isLeft cnt facts filters = .ok ("false", facts)
  | .ParenExpr X, isLeft, cnt, facts, filters, h => by
    rw [eval]
    exact boolRoot_outcome fl X isLeft cnt facts filters (by simpa [boolRoot] using h)
  | .Binary (.mk X op Y), isLeft, cnt, facts, filters, h => by
    cases hx : eval fl X true true (cnt + 1) facts filters with
    | error e => exact Or.inl ⟨e, by simp only [eval, evalBinaryExpr, hx]⟩
    | ok r1 =>
      obtain ⟨l, f1⟩ := r1
      have e1 := eval_condition_facts fl X true (cnt + 1) facts filters l f1 hx
      subst e1
      cases hy : eval fl Y true false (cnt + 1) f1 filters with
      | error e => exact Or.inl ⟨e, by simp only [eval, evalBinaryExpr, hx, hy]⟩
      | ok r2 =>
        obtain ⟨r, f2⟩ := r2
        have e2 := eval_condition_facts fl Y false (cnt + 1) f1 filters r f2 hy
        subst e2
        right
        simp only [eval, evalBinaryExpr, hx, hy]
        cases op <;> simp [boolRoot] at h <;> simp only [if_true]
        all_goals (repeat' split)
        all_goals simp
  | .BasicLit _ _, _, _, _, _, h => by simp [boolRoot] at h
  | .Ident _, _, _, _, _, h => by simp [boolRoot] at h
  | .Other, _, _, _, _, h => by simp [boolRoot] at h

/-- C7 (boolean conditions), amended: for every tree whose root, inside any enclosing
parentheses, is a binary operation with operator `&&`, `||`, `==` or `!=`, evaluation
in condition context against any fact table and filter set yields "true" or "false",
unless a numeric conversion in an operand terminates the process (the exit of
`strToFloat64` on an operand that `ParseFloat` rejects). -/
theorem eval_condition_boolRoot (fl : Float64Lib) (e : Expr) (isLeft : Bool) (cnt : Int)
    (facts : Facts) (filters : Filters) (h : boolRoot e = true) :
    (∃ v, fl.ParseFloat v = none ∧
      eval fl e true isLeft cnt facts filters =
        .error ⟨"Unable to convert " ++ v ++ " to float"⟩) ∨
    eval fl e true isLeft cnt facts filters = .ok ("true", facts) ∨
    eval fl e true isLeft cnt facts filters = .ok ("false", facts) := by
  rcases boolRoot_outcome fl e isLeft cnt facts filters h with ⟨m, hm⟩ | ht | hf
  · obtain ⟨v, hv, hmsg⟩ := eval_exit fl e true isLeft cnt facts filters m hm
    exact Or.inl ⟨v, hv, by rw [hm, hmsg]⟩
  · exact Or.inr (Or.inl ht)
  · exact Or.inr (Or.inr hf)

/-- Instances of C7 amended: the parenthesised condition `(a == 1)` yields "true" on
`a = "1"`, and no process exit occurs. -/
theorem eval_condition_boolRoot_witness :
    eval intLib (.ParenExpr (identEqlInt "a" "1")) true true 0 (Facts.ofList [("a", "1")])
        (Filters.ofList []) = .ok ("true", Facts.ofList [("a", "1")]) ∨
    eval intLib (.ParenExpr (identEqlInt "a" "1")) true true 0 (Facts.ofList [("a", "1")])
        (Filters.ofList []) = .ok ("false", Facts.ofList [("a", "1")]) :=
  (eval_condition_boolRoot intLib (.ParenExpr (identEqlInt "a" "1")) true 0
    (Facts.ofList [("a", "1")]) (Filters.ofList []) rfl).resolve_left
    (fun ⟨_, _, h⟩ => Except.noConfusion h)

/-- C8 (identifier in action context): an identifier that does not start with an
underscore evaluates to its value in the fact table when the name is present and to
its own name when it is absent; evaluating an identifier, in either context, always
returns and leaves the fact table as it was. -/
theorem eval_Ident (fl : Float64Lib) (Name : String) (isLeft : Bool) (cnt : Int)
    (facts : Facts) (filters : Filters) :
    (HasPrefix Name "_" = false →
      eval fl (.Ident Name) false isLeft cnt facts filters =
        .ok ((facts Name).getD Name, facts)) ∧
    ∀ isRule, ∃ s, eval fl (.Ident Name) isRule isLeft cnt facts filters = .ok (s, facts) := by
  constructor
  · intro h
    cases hv : facts Name <;> simp [eval, h, hv]
  · intro isRule
    cases isRule
    · by_cases h : HasPrefix Name "_" = true
      · exact ⟨sliceFrom1 Name, by simp [eval, h]⟩
      · cases hv : facts Name with
        | none => exact ⟨Name, by simp [eval, h, hv]⟩
        | some v => exact ⟨v, by simp [eval, h, hv]⟩
    · exact ⟨Name, by simp [eval]⟩

/-- Instances of C8: on `a = "1"` the identifier `a` evaluates to "1" and the absent
identifier `b` to "b", in action context. -/
theorem eval_Ident_witness :
    eval intLib (.Ident "a") false true 0 (Facts.ofList [("a", "1")]) (Filters.ofList []) =
      .ok ("1", Facts.ofList [("a", "1")]) ∧
    eval intLib (.Ident "b") false true 0 (Facts.ofList [("a", "1")]) (Filters.ofList []) =
      .ok ("b", Facts.ofList [("a", "1")]) :=
  ⟨(eval_Ident intLib "a" true 0 (Facts.ofList [("a", "1")]) (Filters.ofList [])).1
      (by decide),
   (eval_Ident intLib "b" true 0 (Facts.ofList [("a", "1")]) (Filters.ofList [])).1
      (by decide)⟩

/-- C9 (one rule): for a compiled rule whose condition evaluates, in condition context,
to the string `s`: when `s` is "true", `exeAstNodes` sets `trace` to its previous value
followed by `<ruleName>;` and then evaluates every action tree once, in declared order,
in action context, each on the table left by the one before; when `s` is anything else
it returns the fact table exactly as it was. In both cases the returned error is nil. -/
theorem exeAstNodes_rule (fl : Float64Lib) (g : Globals) (ruleName : String)
    (actions : List String) (facts f1 : Facts) (filters : Filters) (node : astNode)
    (s : String) (hn : g.astNodes ruleName = some node)
    (hc : eval fl node.expr true true 0 facts filters = .ok (s, f1)) :
    (s = "true" →
      exeAstNodes fl g ruleName actions facts filters =
        (node.actionExpr.foldlM (fun f a => (eval fl a false true 0 f filters).map Prod.snd)
          (facts.set "trace" (facts.index "trace" ++ ruleName ++ ";"))).map
          (fun f => (none, f))) ∧
    (s ≠ "true" → exeAstNodes fl g ruleName actions facts filters = .ok (none, facts)) := by
  have e1 := eval_condition_facts fl node.expr true 0 facts filters s f1 hc
  subst e1
  constructor
  · intro hs
    subst hs
    simp only [exeAstNodes, hn, hc, if_true, evalActions_eq_foldlM]
    cases List.foldlM (fun f a => (eval fl a false true 0 f filters).map Prod.snd)
      (f1.set "trace" (f1.index "trace" ++ ruleName ++ ";")) node.actionExpr <;> rfl
  · intro hs
    simp only [exeAstNodes, hn, hc, hs, if_false]

/-- Instances of C9 on the rule `R` (`a==1`; actions `b==2`, `c==3`): on `a = "1"` the
trace becomes "R;" and then `b` and `c` are assigned in that order; on `a = "2"` the
table comes back unchanged. -/
theorem exeAstNodes_rule_witness :
    exeAstNodes intLib oneRuleGlobals "R" ["b==2", "c==3"] (Facts.ofList [("a", "1")])
        (Filters.ofList []) =
      .ok (none, (((Facts.ofList [("a", "1")]).set "trace" "R;").set "b" "2").set "c" "3") ∧
    exeAstNodes intLib oneRuleGlobals "R" ["b==2", "c==3"] (Facts.ofList [("a", "2")])
        (Filters.ofList []) = .ok (none, Facts.ofList [("a", "2")]) :=
  ⟨((exeAstNodes_rule intLib oneRuleGlobals "R" ["b==2", "c==3"] (Facts.ofList [("a", "1")])
      _ (Filters.ofList []) ⟨"R", identEqlInt "a" "1", [identEqlInt "b" "2", identEqlInt "c" "3"]⟩
      "true" rfl rfl).1 rfl).trans rfl,
   (exeAstNodes_rule intLib oneRuleGlobals "R" ["b==2", "c==3"] (Facts.ofList [("a", "2")])
      _ (Filters.ofList []) ⟨"R", identEqlInt "a" "1", [identEqlInt "b" "2", identEqlInt "c" "3"]⟩
      "false" rfl rfl).2 (by decide)⟩

/-- C10 (no short circuit): for `&&` and `||`, once the left operand has returned a string
`l`, whatever it is, the right operand is evaluated on the fact table the left operand
left behind; the operator returns the table the right operand leaves (so an assignment
in the right operand takes place in action context), and a process exit in the right
operand is the outcome of the whole expression. -/
theorem eval_LAND_LOR_evaluates_both (fl : Float64Lib) (X Y : Expr) (isRule isLeft : Bool)
    (cnt : Int) (facts f1 : Facts) (filters : Filters) (l : String)
    (hX : eval fl X isRule true (cnt + 1) facts filters = .ok (l, f1)) :
    eval fl (.Binary (.mk X .LAND Y)) isRule isLeft cnt facts filters =
      (match eval fl Y isRule false (cnt + 1) f1 filters with
        | .error e => .error e
        | .ok (r, f2) => .ok (if l = "true" ∧ r = "true" then "true" else "false", f2)) ∧
    eval fl (.Binary (.mk X .LOR Y)) isRule isLeft cnt facts filters =
      (match eval fl Y isRule false (cnt + 1) f1 filters with
        | .error e => .error e
        | .ok (r, f2) => .ok (if l = "true" ∨ r = "true" then "true" else "false", f2)) := by
  constructor <;>
    simp only [eval, evalBinaryExpr, hX] <;>
    cases eval fl Y isRule false (cnt + 1) f1 filters with
    | error e => rfl
    | ok r2 =>
      obtain ⟨r, f2⟩ := r2
      simp only
      split <;> rfl

/-- Instances of C10 in action context on the empty table: `false && x == 1` returns
"false" and `true || x == 1` returns "true", and in both the assignment of the right
operand has taken place (`x = "1"`). -/
theorem eval_LAND_LOR_evaluates_both_witness :
    eval intLib (.Binary (.mk (.Ident "false") .LAND (identEqlInt "x" "1"))) false true 0
        Facts.empty (Filters.ofList []) = .ok ("false", Facts.empty.set "x" "1") ∧
    eval intLib (.Binary (.mk (.Ident "true") .LOR (identEqlInt "x" "1"))) false true 0
        Facts.empty (Filters.ofList []) = .ok ("true", Facts.empty.set "x" "1") :=
  ⟨((eval_LAND_LOR_evaluates_both intLib (.Ident "false") (identEqlInt "x" "1") false true 0
      Facts.empty Facts.empty (Filters.ofList []) "false" rfl).1).trans rfl,
   ((eval_LAND_LOR_evaluates_both intLib (.Ident "true") (identEqlInt "x" "1") false true 0
      Facts.empty Facts.empty (Filters.ofList []) "true" rfl).2).trans rfl⟩

/-- C11 as stated fails: with the two-rule package `R1`, `R2` installed, loading the
package whose second rule has the malformed condition `(` reports failure, yet the
installed state is replaced: the rule list is the new one (`S1`, `S2`), the filter set
holds the new key, the compiled-rule map has lost `R1` and holds `S1`, and the next
evaluation of `a = "1"` no longer runs `R1` (no `b`, empty trace). -/
theorem SetBrePkg_malformed_condition_replaces_state :
    ∃ g2 t,
      SetBrePkg tableParseExpr orderingGlobals (.decoded malformedPkg) =
        .ok ((false, some ("error in Function SetBrePkg : " ++
          ("error in compile : " ++ parseErrorText))), g2) ∧
      g2.brePackage.RuleSet.map (fun r => r.RuleName) = ["S1", "S2"] ∧
      (orderingGlobals.filters "xlsSeg-10" = false ∧ g2.filters "xlsSeg-10" = true) ∧
      ((orderingGlobals.astNodes "R1").isSome = true ∧ (g2.astNodes "R1").isSome = false ∧
        (g2.astNodes "S1").isSome = true ∧ (g2.astNodes "S2").isSome = false) ∧
      ExeBrePkg intLib g2 (.object (Facts.ofList [("a", "1")])) = .ok (some t, none) ∧
      t "b" = none ∧ t "trace" = some "" :=
  ⟨_, _, rfl, rfl, ⟨by decide, by decide⟩, ⟨by decide, by decide, by decide, by decide⟩,
    rfl, by decide, by decide⟩

/-- C11 (failed load), amended: when the first text of the package that does not parse
is the condition of a rule, all texts of the rules before it parsing, `SetBrePkg`
reports failure (`success` false, a non-nil error carrying the parser's message) and
leaves this state: the rule list and the filter set of the new package, and a
compiled-rule map holding exactly the entries of the rules before the failing one. -/
theorem SetBrePkg_condition_parse_failure (ParseExpr : String → Except String Expr)
    (parse : String → Expr) (g : Globals) (pkg : BrePkg) (pre post : List ruleSet)
    (bad : ruleSet) (msg : String)
    (hrules : pkg.RuleSet = pre ++ bad :: post)
    (hpre : ParsesAll ParseExpr parse pre)
    (hbad : ParseExpr bad.Rule = .error msg) :
    SetBrePkg ParseExpr g (.decoded pkg) =
      .ok ((false, some ("error in Function SetBrePkg : " ++ ("error in compile : " ++ msg))),
        { astNodes := compiledOver parse (fun _ => none) pre,
          filters := Filters.ofList pkg.Filters,
          brePackage := pkg }) := by
  have hc : compile ParseExpr pkg =
      .ok (some ("error in compile : " ++ msg), compiledOver parse (fun _ => none) pre) := by
    rw [compile, hrules, compileRules_append ParseExpr parse (bad :: post) pre _ hpre]
    simp only [compileRules, hbad]
  simp only [SetBrePkg, hc]

/-- An instance of C11 amended: loading the package `S1`, `S2` with the malformed
condition `(` in `S2` reports failure and leaves the new rule list, the new filter set
and a compiled-rule map holding `S1` alone. -/
theorem SetBrePkg_condition_parse_failure_witness :
    SetBrePkg tableParseExpr orderingGlobals (.decoded malformedPkg) =
      .ok ((false, some ("error in Function SetBrePkg : " ++
          ("error in compile : " ++ parseErrorText))),
        { astNodes := compiledOver tableParse (fun _ => none) [⟨"S1", "x==1", ["y==2"]⟩],
          filters := Filters.ofList ["xlsSeg-10"],
          brePackage := malformedPkg }) :=
  SetBrePkg_condition_parse_failure tableParseExpr tableParse orderingGlobals malformedPkg
    [⟨"S1", "x==1", ["y==2"]⟩] [] ⟨"S2", "(", []⟩ parseErrorText rfl
    (by
      intro r hr
      simp only [List.mem_singleton] at hr
      subst hr
      refine ⟨rfl, ?_⟩
      intro a ha
      simp only [List.mem_singleton] at ha
      subst ha
      rfl)
    rfl

/-- C12 as stated fails: the package that uses the rule name `R` twice compiles without
error, and the map holds under `R` the entry of the second rule. -/
theorem compile_duplicate_names_succeeds :
    ¬ (duplicatePkg.RuleSet.map (fun r => r.RuleName)).Nodup ∧
    ∃ m, compile tableParseExpr duplicatePkg = .ok (none, m) ∧
      (m "R").map (fun n => n.actionExpr.length) = some 1 ∧
      ∃ n, m "R" = some n ∧ n.name = "R" ∧ n.expr = identEqlInt "b" "2" ∧
        n.actionExpr = [identEqlInt "c" "3"] :=
  ⟨by decide, _, rfl, rfl, _, rfl, rfl, rfl, rfl⟩

/-- C12 (duplicate rule names), amended: a package in which two rules have the same
name compiles without error whenever every condition and action text of it parses;
`compile` does not compare rule names. -/
theorem compile_with_duplicate_names (ParseExpr : String → Except String Expr)
    (parse : String → Expr) (pkg : BrePkg)
    (_hdup : ¬ (pkg.RuleSet.map (fun r => r.RuleName)).Nodup)
    (hparse : ParsesAll ParseExpr parse pkg.RuleSet) :
    ∃ m, compile ParseExpr pkg = .ok (none, m) := by
  refine ⟨compiledOver parse (fun _ => none) pkg.RuleSet, ?_⟩
  have h := compileRules_append ParseExpr parse [] pkg.RuleSet (fun _ => none) hparse
  rw [List.append_nil] at h
  rw [compile, h, compileRules]

/-- Every text of the package that uses `R` twice parses. -/
theorem duplicatePkg_parses : ParsesAll tableParseExpr tableParse duplicatePkg.RuleSet := by
  intro r hr
  simp only [duplicatePkg, List.mem_cons, List.mem_singleton, List.not_mem_nil, or_false] at hr
  rcases hr with rfl | rfl
  · refine ⟨rfl, ?_⟩
    intro a ha
    simp only [List.mem_singleton] at ha
    subst ha
    rfl
  · refine ⟨rfl, ?_⟩
    intro a ha
    simp only [List.mem_singleton] at ha
    subst ha
    rfl

/-- An instance of C12 amended: the package that uses the rule name `R` twice compiles
without error. -/
theorem compile_with_duplicate_names_witness :
    ∃ m, compile tableParseExpr duplicatePkg = .ok (none, m) :=
  compile_with_duplicate_names tableParseExpr tableParse duplicatePkg (by decide)
    duplicatePkg_parses

/-- C19 (compiled-rule map): when every condition and action text of the package parses,
`compile` returns without error and leaves a map that has an entry exactly for the rule
names occurring in the rule list; the entry for a name holds the name, the parsed
condition and the parsed actions, in order, of the last rule in the list bearing that
name; with pairwise distinct names the entry of every rule holds its own condition and
as many action trees as the rule has action texts. -/
theorem compile_entries (ParseExpr : String → Except String Expr) (parse : String → Expr)
    (pkg : BrePkg) (hparse : ParsesAll ParseExpr parse pkg.RuleSet) :
    ∃ m, compile ParseExpr pkg = .ok (none, m) ∧
      (∀ name, (m name).isSome = true ↔ ∃ r ∈ pkg.RuleSet, r.RuleName = name) ∧
      (∀ name, m name =
        (lastRuleNamed pkg.RuleSet name).map
          (fun r => ⟨name, parse r.Rule, r.Actions.map parse⟩)) ∧
      ((pkg.RuleSet.map (fun r => r.RuleName)).Nodup →
        ∀ r ∈ pkg.RuleSet, ∃ n, m r.RuleName = some n ∧ n.expr = parse r.Rule ∧
          n.actionExpr = r.Actions.map parse ∧ n.actionExpr.length = r.Actions.length) := by
  have h := compileRules_append ParseExpr parse [] pkg.RuleSet (fun _ => none) hparse
  rw [List.append_nil] at h
  have hm : ∀ name, compiledOver parse (fun _ => none) pkg.RuleSet name =
      (lastRuleNamed pkg.RuleSet name).map
        (fun r => ⟨name, parse r.Rule, r.Actions.map parse⟩) := by
    intro name
    unfold compiledOver
    cases hl : lastRuleNamed pkg.RuleSet name with
    | none => rfl
    | some r =>
      have hn := (lastRuleNamed_name pkg.RuleSet name r hl).2
      simp [compiledEntry, hn]
  refine ⟨compiledOver parse (fun _ => none) pkg.RuleSet, ?_, ?_, hm, ?_⟩
  · rw [compile, h, compileRules]
  · intro name
    rw [hm, ← lastRuleNamed_isSome]
    cases lastRuleNamed pkg.RuleSet name <;> exact Iff.rfl
  · intro hnd r hr
    refine ⟨⟨r.RuleName, parse r.Rule, r.Actions.map parse⟩, ?_, rfl, rfl, by simp⟩
    rw [hm, lastRuleNamed_of_nodup pkg.RuleSet hnd r hr]
    rfl

/-- An instance of C19: the package `R1` (`a==1`; `b==2`), `R2` (`b==2`; `c==3`) compiles
to a map with entries for `R1` and `R2` only, each with the condition tree and the one
action tree of its rule. -/
theorem compile_entries_witness :
    ∃ m, compile tableParseExpr orderingGlobals.brePackage = .ok (none, m) ∧
      (∀ name, (m name).isSome = true ↔
        ∃ r ∈ orderingGlobals.brePackage.RuleSet, r.RuleName = name) ∧
      (∀ name, m name =
        (lastRuleNamed orderingGlobals.brePackage.RuleSet name).map
          (fun r => ⟨name, tableParse r.Rule, r.Actions.map tableParse⟩)) ∧
      ((orderingGlobals.brePackage.RuleSet.map (fun r => r.RuleName)).Nodup →
        ∀ r ∈ orderingGlobals.brePackage.RuleSet, ∃ n, m r.RuleName = some n ∧
          n.expr = tableParse r.Rule ∧ n.actionExpr = r.Actions.map tableParse ∧
          n.actionExpr.length = r.Actions.length) :=
  compile_entries tableParseExpr tableParse orderingGlobals.brePackage orderingPkg_parses

/-- C13 (numeric conversion), the code at the failing input: with the rule `R` (`a==1`;
action assigning `c + a` to `b`) and the facts `a = "1"`, `c = "abc"`, where "abc" is an
operand `ParseFloat` rejects, `ExeBrePkg` does not return: the outcome is the process
exit of `log.Fatalf`, no error value reaches the caller. -/
theorem ExeBrePkg_numeric_conversion_exits (fl : Float64Lib)
    (h : fl.ParseFloat "abc" = none) :
    ExeBrePkg fl arithGlobals (.object (Facts.ofList [("a", "1"), ("c", "abc")])) =
      .error ⟨"Unable to convert abc to float"⟩ := by
  have hu : HasPrefix "b" "_" = false := by decide
  have hc : HasPrefix "c" "_" = false := by decide
  have ha : HasPrefix "a" "_" = false := by decide
  have hx : HasPrefix "1" "xls" = false := by decide
  simp [ExeBrePkg, exeRules, exeAstNodes, evalActions, arithGlobals, identEqlInt,
    identOpIdent, eval, evalBinaryExpr, arith, strToFloat64, h, hu, hc, ha, hx,
    Facts.index, Facts.set, Facts.ofList, Facts.empty]

/-- The instance of C13 on the integer library, which rejects "abc". -/
theorem ExeBrePkg_numeric_conversion_exits_witness :
    ExeBrePkg intLib arithGlobals (.object (Facts.ofList [("a", "1"), ("c", "abc")])) =
      .error ⟨"Unable to convert abc to float"⟩ :=
  ExeBrePkg_numeric_conversion_exits intLib intLib_ParseFloat_abc

/-- C15 (missing compiled entry), the code at the failing input: after the failed load of
the package `S1`, `S2` (malformed condition in `S2`) the rule list names `S2` but the
compiled-rule map has no entry for it; `exeAstNodes` on `S2` returns a non-nil error,
and `ExeBrePkg` on `x = "1"` still returns the table (with trace "S1;") and a nil error.
In general `ExeBrePkg` never returns a non-nil error with a decoded fact table, and the
rule loop passes over a rule without compiled entry and runs the remaining rules. -/
theorem ExeBrePkg_swallows_missing_rule :
    (∃ g2 t,
      SetBrePkg tableParseExpr orderingGlobals (.decoded malformedPkg) =
        .ok ((false, some ("error in Function SetBrePkg : " ++
          ("error in compile : " ++ parseErrorText))), g2) ∧
      g2.brePackage.RuleSet.map (fun r => r.RuleName) = ["S1", "S2"] ∧
      (g2.astNodes "S2").isSome = false ∧
      exeAstNodes intLib g2 "S2" [] t g2.filters =
        .ok (some ("error in exeAstNodes : " ++
          "runtime error: invalid memory address or nil pointer dereference"), t) ∧
      ExeBrePkg intLib g2 (.object (Facts.ofList [("x", "1")])) = .ok (some t, none) ∧
      t "trace" = some "S1;" ∧ t "y" = some "2") ∧
    (∀ (fl : Float64Lib) (g : Globals) (facts : Facts) (res : Option Facts)
        (err : Option String),
      ExeBrePkg fl g (.object facts) = .ok (res, err) → err = none) ∧
    (∀ (fl : Float64Lib) (g : Globals) (v : ruleSet) (rest : List ruleSet) (facts : Facts),
      g.astNodes v.RuleName = none →
      exeRules fl g (v :: rest) facts = exeRules fl g rest facts) := by
  refine ⟨⟨_, _, rfl, rfl, by decide, rfl, rfl, by decide, by decide⟩, ?_, ?_⟩
  · intro fl g facts res err h
    simp only [ExeBrePkg] at h
    cases hr : exeRules fl g g.brePackage.RuleSet (facts.set "trace" "") with
    | error e => simp [hr] at h
    | ok f =>
      simp only [hr, Except.ok.injEq, Prod.mk.injEq] at h
      exact h.2.symm
  · intro fl g v rest facts hn
    simp only [exeRules, exeAstNodes, hn]

/-- C16 (condition context is read-only): for every tree, fact table and filter set,
`eval` with `isRule = true` either returns and hands back the fact table it was given,
or ends the process in `strToFloat64` on an operand that `ParseFloat` rejects. -/
theorem eval_condition_context_keeps_facts (fl : Float64Lib) (e : Expr) (isLeft : Bool)
    (cnt : Int) (facts : Facts) (filters : Filters) :
    (∃ s, eval fl e true isLeft cnt facts filters = .ok (s, facts)) ∨
    (∃ v, fl.ParseFloat v = none ∧
      eval fl e true isLeft cnt facts filters =
        .error ⟨"Unable to convert " ++ v ++ " to float"⟩) := by
  cases h : eval fl e true isLeft cnt facts filters with
  | error m =>
    obtain ⟨v, hv, hm⟩ := eval_exit fl e true isLeft cnt facts filters m h
    exact Or.inr ⟨v, hv, by rw [hm]⟩
  | ok r =>
    obtain ⟨s, f⟩ := r
    have hf := eval_condition_facts fl e isLeft cnt facts filters s f h
    exact Or.inl ⟨s, by rw [hf]⟩

/-- C17 (logical operators): when the operands evaluate to the strings `l` and `r`, `&&`
yields "true" if both are exactly "true" and "false" otherwise, and `||` yields "true"
if at least one is exactly "true" and "false" otherwise; both return the table the
right operand left. -/
theorem eval_LAND_LOR_tokens (fl : Float64Lib) (X Y : Expr) (isRule isLeft : Bool)
    (cnt : Int) (facts f1 f2 : Facts) (filters : Filters) (l r : String)
    (hX : eval fl X isRule true (cnt + 1) facts filters = .ok (l, f1))
    (hY : eval fl Y isRule false (cnt + 1) f1 filters = .ok (r, f2)) :
    ∃ tAnd tOr,
      eval fl (.Binary (.mk X .LAND Y)) isRule isLeft cnt facts filters = .ok (tAnd, f2) ∧
      eval fl (.Binary (.mk X .LOR Y)) isRule isLeft cnt facts filters = .ok (tOr, f2) ∧
      (tAnd = "true" ↔ l = "true" ∧ r = "true") ∧
      (tAnd = "false" ↔ ¬ (l = "true" ∧ r = "true")) ∧
      (tOr = "true" ↔ l = "true" ∨ r = "true") ∧
      (tOr = "false" ↔ ¬ (l = "true" ∨ r = "true")) := by
  refine ⟨if l = "true" ∧ r = "true" then "true" else "false",
    if l = "true" ∨ r = "true" then "true" else "false", ?_, ?_, ?_, ?_, ?_, ?_⟩
  · simp only [eval, evalBinaryExpr, hX, hY]
    split <;> rfl
  · simp only [eval, evalBinaryExpr, hX, hY]
    split <;> rfl
  · by_cases h : l = "true" ∧ r = "true" <;> simp [h]
  · by_cases h : l = "true" ∧ r = "true" <;> simp [h]
  · by_cases h : l = "true" ∨ r = "true" <;> simp [h]
  · by_cases h : l = "true" ∨ r = "true" <;> simp [h]

/-- An instance of C17 in action context on the empty table: the left operand `(x == 1)`
is an assignment and returns the empty string, the right operand `true` evaluates to
"true"; `&&` yields "false" and `||` yields "true". -/
theorem eval_LAND_LOR_tokens_witness :
    eval intLib (.Binary (.mk (.ParenExpr (identEqlInt "x" "1")) .LAND (.Ident "true")))
        false true 0 Facts.empty (Filters.ofList []) =
      .ok ("false", Facts.empty.set "x" "1") ∧
    eval intLib (.Binary (.mk (.ParenExpr (identEqlInt "x" "1")) .LOR (.Ident "true")))
        false true 0 Facts.empty (Filters.ofList []) =
      .ok ("true", Facts.empty.set "x" "1") := by
  obtain ⟨tAnd, tOr, h1, h2, h3, h4, h5, _⟩ :=
    eval_LAND_LOR_tokens intLib (.ParenExpr (identEqlInt "x" "1")) (.Ident "true") false true
      0 Facts.empty (Facts.empty.set "x" "1") (Facts.empty.set "x" "1") (Filters.ofList [])
      "" "true" rfl rfl
  have hAnd : tAnd = "false" := h4.mpr (by decide)
  have hOr : tOr = "true" := h5.mpr (Or.inr rfl)
  rw [h1, h2, hAnd, hOr]
  exact ⟨rfl, rfl⟩

/-- C18 (fact names are never removed): every name present in the fact table before
`eval`, in either context, is present in the table `eval` returns; the table `ExeBrePkg`
returns for a decoded fact document contains every name of the document and the name
`trace`; and the rule loop starts on the document with `trace` set to the empty
string, whatever the document held under `trace`. -/
theorem fact_names_kept (fl : Float64Lib) :
    (∀ (e : Expr) (isRule isLeft : Bool) (cnt : Int) (facts : Facts) (filters : Filters)
        (s : String) (f : Facts),
      eval fl e isRule isLeft cnt facts filters = .ok (s, f) →
      ∀ k, (facts k).isSome = true → (f k).isSome = true) ∧
    (∀ (g : Globals) (facts : Facts) (res : Option Facts) (err : Option String),
      ExeBrePkg fl g (.object facts) = .ok (res, err) →
      ∃ t, res = some t ∧ (∀ k, (facts k).isSome = true → (t k).isSome = true) ∧
        (t "trace").isSome = true) ∧
    (∀ (g : Globals) (facts : Facts),
      ∃ start : Facts, start "trace" = some "" ∧ (∀ k, k ≠ "trace" → start k = facts k) ∧
        ExeBrePkg fl g (.object facts) =
          (exeRules fl g g.brePackage.RuleSet start).map (fun t => (some t, none))) := by
  refine ⟨eval_keeps_names fl, ?_, ?_⟩
  · intro g facts res err h
    simp only [ExeBrePkg] at h
    cases hr : exeRules fl g g.brePackage.RuleSet (facts.set "trace" "") with
    | error e => simp [hr] at h
    | ok f =>
      simp only [hr, Except.ok.injEq, Prod.mk.injEq] at h
      have hk := exeRules_keeps_names fl g g.brePackage.RuleSet _ f hr
      refine ⟨f, h.1.symm, fun k hk2 => hk k (Facts.set_isSome facts _ _ k hk2), ?_⟩
      exact hk "trace" (by simp [Facts.set])
  · intro g facts
    refine ⟨facts.set "trace" "", Facts.set_same facts _ _,
      fun k hk => Facts.set_other facts _ _ k hk, ?_⟩
    simp only [ExeBrePkg]
    cases exeRules fl g g.brePackage.RuleSet (facts.set "trace" "") <;> rfl

end Bre
